import Mathlib

/-!
Shallow embedding of the core of the `ray_tracing` path tracer
(`src/`: `aabb.rs`, `ray.rs`, `geo.rs`, `camera.rs`, `perlin.rs`,
`texture.rs`, `material.rs`, `pdf.rs`, `renderer.rs`).

Modelling conventions:
* `f32` scalars are modelled as exact rationals (`ℚ`); float rounding,
  overflow to infinity and NaN are outside the model except where a claim
  is specifically about the special values (`F32` below).
* Irrational library functions (`sqrt`, `tan`, `acos`, `atan2`) are passed
  in as an explicit function bundle `RF`; theorems constrain only the
  values the code actually uses.
* Shared handles (`Arc<RwLock<dyn Hittable>>`) are modelled by plain
  values; `materal` handles by a numeric identifier.
-/

/-- `nalgebra` `Vector3<f32>` / `Point3<f32>`: three scalars. -/
structure Vec3 where
  x : ℚ
  y : ℚ
  z : ℚ
deriving DecidableEq

namespace Vec3

def add (a b : Vec3) : Vec3 := ⟨a.x + b.x, a.y + b.y, a.z + b.z⟩

def sub (a b : Vec3) : Vec3 := ⟨a.x - b.x, a.y - b.y, a.z - b.z⟩

def neg (a : Vec3) : Vec3 := ⟨-a.x, -a.y, -a.z⟩

def smul (k : ℚ) (a : Vec3) : Vec3 := ⟨k * a.x, k * a.y, k * a.z⟩

def sdiv (a : Vec3) (k : ℚ) : Vec3 := ⟨a.x / k, a.y / k, a.z / k⟩

def dot (a b : Vec3) : ℚ := a.x * b.x + a.y * b.y + a.z * b.z

def cross (a b : Vec3) : Vec3 :=
  ⟨a.y * b.z - a.z * b.y, a.z * b.x - a.x * b.z, a.x * b.y - a.y * b.x⟩

def norm_squared (a : Vec3) : ℚ := a.dot a

def zero : Vec3 := ⟨0, 0, 0⟩

/-- Componentwise access by axis index, mirroring `v[i]` on `nalgebra` vectors. -/
def nth (a : Vec3) : Fin 3 → ℚ
  | 0 => a.x
  | 1 => a.y
  | 2 => a.z

end Vec3

/-- The bundle of irrational `f32` library functions the code calls. -/
structure RF where
  sqrt : ℚ → ℚ
  tan : ℚ → ℚ
  acos : ℚ → ℚ
  atan2 : ℚ → ℚ → ℚ

/-- `f32::consts::PI`, the exact value of the 32-bit float constant. -/
def PI32 : ℚ := 13176795 / 4194304

/-- `nalgebra` `normalize`: divide by the Euclidean norm `sqrt (norm_squared v)`. -/
def Vec3.normalize (rf : RF) (v : Vec3) : Vec3 :=
  v.sdiv (rf.sqrt v.norm_squared)

/-- `ray.rs`: `Ray { origin, direction, time }` (direction is unit by construction
in the Rust types; carried as a hypothesis where a theorem needs it). -/
structure Ray where
  origin : Vec3
  direction : Vec3
  time : ℚ
deriving DecidableEq

/-- `Ray::at`: `origin + t * direction`. -/
def Ray.at (r : Ray) (t : ℚ) : Vec3 :=
  r.origin.add (Vec3.smul t r.direction)

/-- `ray.rs`: `HitRecord` (the `material` shared handle is modelled by an id). -/
structure HitRecord where
  point : Vec3
  normal : Vec3
  t : ℚ
  uv : ℚ × ℚ
  front_face : Bool
  material : ℕ
deriving DecidableEq

/-- `HitRecord::set_face_normal`: returns the `(front_face, normal)` pair the
method stores into the record. -/
def setFaceNormal (ray : Ray) (outward_normal : Vec3) : Bool × Vec3 :=
  let ff := ray.direction.dot outward_normal < 0
  (ff, if ff then outward_normal else outward_normal.neg)

/-- `aabb.rs`: `AxisAlignedBoundingBox`. -/
structure Aabb where
  minimum : Vec3
  maximum : Vec3
deriving DecidableEq

namespace Aabb

/-- One axis of the slab test in `AxisAlignedBoundingBox::hit`:
`t0 = (min - a)/b`, `t1 = (max - a)/b`, swapped when `1/b < 0`, then
`t_max.min(t1) > t_min.max(t0)`. -/
def axisHit (a b mn mx t_min t_max : ℚ) : Bool :=
  let inv_b := 1 / b
  let t0 := (mn - a) * inv_b
  let t1 := (mx - a) * inv_b
  let p := if inv_b < 0 then (t1, t0) else (t0, t1)
  decide (min t_max p.2 > max t_min p.1)

/-- `AxisAlignedBoundingBox::hit`: all three axes must pass the slab test. -/
def hit (bb : Aabb) (ray : Ray) (t_min t_max : ℚ) : Bool :=
  axisHit ray.origin.x ray.direction.x bb.minimum.x bb.maximum.x t_min t_max &&
  axisHit ray.origin.y ray.direction.y bb.minimum.y bb.maximum.y t_min t_max &&
  axisHit ray.origin.z ray.direction.z bb.minimum.z bb.maximum.z t_min t_max

/-- `AxisAlignedBoundingBox::surrounding_box` on two present boxes:
componentwise min of minima and max of maxima. -/
def surrounding (b0 b1 : Aabb) : Aabb :=
  ⟨⟨min b0.minimum.x b1.minimum.x, min b0.minimum.y b1.minimum.y,
    min b0.minimum.z b1.minimum.z⟩,
   ⟨max b0.maximum.x b1.maximum.x, max b0.maximum.y b1.maximum.y,
    max b0.maximum.z b1.maximum.z⟩⟩

/-- Swap the box's `minimum` and `maximum` component on one axis (the
transformation quantified over in the spec's swap invariant). -/
def swapAxis (i : Fin 3) (bb : Aabb) : Aabb :=
  match i with
  | 0 => ⟨⟨bb.maximum.x, bb.minimum.y, bb.minimum.z⟩,
          ⟨bb.minimum.x, bb.maximum.y, bb.maximum.z⟩⟩
  | 1 => ⟨⟨bb.minimum.x, bb.maximum.y, bb.minimum.z⟩,
          ⟨bb.maximum.x, bb.minimum.y, bb.maximum.z⟩⟩
  | 2 => ⟨⟨bb.minimum.x, bb.minimum.y, bb.maximum.z⟩,
          ⟨bb.maximum.x, bb.maximum.y, bb.minimum.z⟩⟩

end Aabb

/-! ## Sphere (`geo.rs`) -/

/-- `geo.rs`: `Sphere` (material handle as an id). -/
structure Sphere where
  center0 : Vec3
  center1 : Vec3
  radius : ℚ
  material : ℕ
  time0 : ℚ
  time1 : ℚ
  moving : Bool
deriving DecidableEq

namespace Sphere

/-- `Sphere::get_center`. -/
def get_center (s : Sphere) (time : ℚ) : Vec3 :=
  if s.moving then
    s.center0.add (Vec3.smul ((time - s.time0) / (s.time1 - s.time0))
      (s.center1.sub s.center0))
  else s.center0

/-- `Sphere::get_sphere_uv`: `theta = acos(-p.y)`, `phi = atan2(-p.z, p.x) + PI`,
returns `[phi/(2·PI), theta/PI]`. -/
def get_sphere_uv (rf : RF) (p : Vec3) : ℚ × ℚ :=
  let theta := rf.acos (-p.y)
  let phi := rf.atan2 (-p.z) p.x + PI32
  (phi / (2 * PI32), theta / PI32)

/-- `Sphere::hit`: the half-b quadratic, first root preferred, record filled
via `set_face_normal`. -/
def hit (rf : RF) (s : Sphere) (ray : Ray) (t_min t_max : ℚ) : Option HitRecord :=
  let oc := ray.origin.sub (s.get_center ray.time)
  let a := ray.direction.norm_squared
  let half_b := oc.dot ray.direction
  let c := oc.norm_squared - s.radius * s.radius
  let discriminant := half_b * half_b - a * c
  if discriminant < 0 then none
  else
    let sqrtd := rf.sqrt discriminant
    let root0 := (-half_b - sqrtd) / a
    let root1 := (-half_b + sqrtd) / a
    let root? : Option ℚ :=
      if root0 < t_min ∨ root0 > t_max then
        if root1 < t_min ∨ root1 > t_max then none else some root1
      else some root0
    root?.map (fun root =>
      let point := ray.at root
      let outward_normal := (point.sub (s.get_center ray.time)).sdiv s.radius
      let uv := get_sphere_uv rf outward_normal
      let fn := setFaceNormal ray (outward_normal.normalize rf)
      { point := point, normal := fn.2, t := root, uv := uv,
        front_face := fn.1, material := s.material })

/-- `Sphere::bounding_box` for a non-moving sphere:
`[center - (r,r,r), center + (r,r,r)]`. -/
def bounding_box (s : Sphere) : Aabb :=
  let offset : Vec3 := ⟨s.radius, s.radius, s.radius⟩
  ⟨s.center0.sub offset, s.center0.add offset⟩

end Sphere

/-! ## Camera (`camera.rs`) -/

/-- `camera.rs`: the fields of `Camera` that `Camera::new` derives. -/
structure Camera where
  origin : Vec3
  horizontal : Vec3
  vertical : Vec3
  lower_left_corner : Vec3
  w : Vec3
  u : Vec3
  v : Vec3
  len_radius : ℚ
deriving DecidableEq

/-- `camera.rs`: `degree_to_radian`. -/
def degree_to_radian (degree : ℚ) : ℚ := degree / 180 * PI32

/-- `Camera::new`: note `u = vup.cross(&w)` is **not** normalised in the code. -/
def Camera.new (rf : RF) (lookfrom direction vup : Vec3)
    (vfov aspect_ratio aperture focus_dist : ℚ) : Camera :=
  let theta := degree_to_radian vfov
  let h := rf.tan (theta / 2)
  let viewport_height := 2 * h
  let viewport_width := viewport_height * aspect_ratio
  let w := (direction.normalize rf).neg
  let u := vup.cross w
  let v := w.cross u
  let horizontal := Vec3.smul (focus_dist * viewport_width) u
  let vertical := Vec3.smul (focus_dist * viewport_height) v
  let origin := lookfrom
  { origin := origin
    horizontal := horizontal
    vertical := vertical
    lower_left_corner :=
      ((origin.sub (horizontal.sdiv 2)).sub (vertical.sdiv 2)).sub
        (Vec3.smul focus_dist w)
    w := w, u := u, v := v
    len_radius := aperture / 2 }

/-! ## Float special values and the sanitiser (`renderer.rs`) -/

/-- An `f32` as classified by `is_nan` / `is_infinite`: NaN, +∞, −∞, or a
finite value (modelled exactly). -/
inductive F32 where
  | nan : F32
  | inf : F32
  | neginf : F32
  | fin : ℚ → F32
deriving DecidableEq

namespace F32

/-- `f32::is_nan`. -/
def isNaN : F32 → Bool
  | nan => true
  | _ => false

/-- `f32::is_infinite`: true for **both** infinities. -/
def isInfinite : F32 → Bool
  | inf => true
  | neginf => true
  | _ => false

end F32

/-- `Renderer::draw`, per-sample sanitiser:
`if c.is_nan() {0.} else if c.is_infinite() {1.} else {c}`. -/
def sanitize (c : F32) : F32 :=
  if c.isNaN then F32.fin 0 else if c.isInfinite then F32.fin 1 else c

/-! ## Perlin noise (`perlin.rs`) -/

/-- `perlin.rs`: `Perlin { rand_float, perm: [Perm; 3] }`.  The 256-entry
tables are modelled as functions; indices reaching `rand_float` are XORs of
permutation values `< 256`. -/
structure Perlin where
  rand_float : ℕ → Vec3
  perm : Fin 3 → ℕ → ℕ

namespace Perlin

/-- The corner-gradient lookup inside `Perlin::noise`:
`perm_x[(i+di)&255] ^ perm_y[(j+dj)&255] ^ perm_z[(k+dk)&255]`
(`&255` on a two's-complement `i32` is the Euclidean remainder mod 256). -/
def corner (P : Perlin) (ix iy iz : ℤ) (di dj dk : ℕ) : Vec3 :=
  P.rand_float
    ((((P.perm 0 ((ix + di).emod 256).toNat).xor
       (P.perm 1 ((iy + dj).emod 256).toNat)).xor
       (P.perm 2 ((iz + dk).emod 256).toNat)))

/-- The smoothstep `x*x*(3-2x)` applied to each fractional coordinate in
`Perlin::trilinear_interp`. -/
def smooth (x : ℚ) : ℚ := x * x * (3 - 2 * x)

/-- One `(i,j,k)` summand of `Perlin::trilinear_interp`: the gradient dotted
with `uvw - (i,j,k)` times the trilinear weight (both built from the
smoothstepped fractions, exactly as in the source). -/
def triTerm (g : Vec3) (u v w : ℚ) (i j k : ℕ) : ℚ :=
  (g.dot ⟨u - i, v - j, w - k⟩) *
    ((i * u + (1 - (i : ℚ)) * (1 - u)) *
     ((j * v + (1 - (j : ℚ)) * (1 - v)) *
      (k * w + (1 - (k : ℚ)) * (1 - w))))

/-- `Perlin::noise`: integer lattice cell, smoothstepped fractions, and the
2×2×2 trilinear accumulation. -/
def noise (P : Perlin) (p : Vec3) : ℚ :=
  let ix := ⌊p.x⌋
  let iy := ⌊p.y⌋
  let iz := ⌊p.z⌋
  let u := smooth (p.x - ⌊p.x⌋)
  let v := smooth (p.y - ⌊p.y⌋)
  let w := smooth (p.z - ⌊p.z⌋)
  (List.range 2).foldl (fun acc i =>
    (List.range 2).foldl (fun acc j =>
      (List.range 2).foldl (fun acc k =>
        acc + triTerm (P.corner ix iy iz i j k) u v w i j k) acc) acc) 0

/-- `Perlin::turb`: fold `(accum, weight, temp_p)` over the octaves
(`depth.unwrap_or(7)`), then take the absolute value **of the sum**. -/
def turb (P : Perlin) (p : Vec3) (depth : Option ℕ) : ℚ :=
  (((List.range (depth.getD 7)).foldl
    (fun (st : ℚ × ℚ × Vec3) _ =>
      (st.1 + st.2.1 * P.noise st.2.2, 0.5 * st.2.1, Vec3.smul 2 st.2.2))
    (0, 1, p)).1)
  |> abs

end Perlin

/-! ## Materials (`material.rs`) and the renderer's use of them -/

/-- The scatter classification `renderer.rs` matches on (`ScatterType`):
deterministic specular/isotropic rays, or a diffuse cosine PDF around an
axis. -/
inductive ScatterType where
  | Specular : Ray → ScatterType
  | ISO : Ray → ScatterType
  | Diffuse : Vec3 → ScatterType
deriving DecidableEq

/-- `ScatterRecord { s_type, attenuation }` as consumed by `Renderer::ray_color`. -/
structure ScatterRecord where
  s_type : ScatterType
  attenuation : Vec3
deriving DecidableEq

/-- A texture is its `value(uv, p)` function (`texture.rs` trait `Texture`). -/
def TextureFn : Type := ℚ × ℚ → Vec3 → Vec3

/-- `DiffuseLight::scatter`: returns no scatter record, for every ray and hit. -/
def DiffuseLight.scatter (_ray_in : Ray) (_hit_record : HitRecord) :
    Option ScatterRecord := none

/-- Modelled from the spec: the `DiffuseLight::emit(&hit_record)` of the
`Material` API that `renderer.rs` calls (`emit(&hit_record)` returning
`Option<Color>`, consumed with `.unwrap_or(Color::zeros())`); this method is
missing from the `src/` snapshot of `material.rs`, whose `emit(uv, point)`
predates it.  Spec: "emit(hit) returns the texture value at (uv,point) when
front_face; otherwise black (double-sided emitters are disallowed)". -/
def DiffuseLight.emit (texture : TextureFn) (hit_record : HitRecord) :
    Option Vec3 :=
  if hit_record.front_face then some (texture hit_record.uv hit_record.point)
  else none

/-- `Renderer::ray_color`'s emitted-radiance line:
`hit_record.material.emit(&hit_record).unwrap_or(Color::zeros())`,
specialised to a `DiffuseLight` material. -/
def emittedRadiance (texture : TextureFn) (hit_record : HitRecord) : Vec3 :=
  (DiffuseLight.emit texture hit_record).getD Vec3.zero

/-! ## PDFs over geometry (`pdf.rs`, `ray.rs`) and `ray_color`'s mixture -/

/-- `HittableList::pdf_val`: the children's `pdf_val`s are summed and divided
by `objects.len()`.  The division is kept partial (`none`) when the list is
empty, which is exactly the division by zero the claim is about; each child's
`pdf_val(origin, v)` is an abstract rational. -/
def HittableList.pdfVal (childVals : List ℚ) : Option ℚ :=
  if childVals.length = 0 then none
  else some (childVals.sum / (childVals.length : ℚ))

/-- `MixPDF::value`: `0.5 * p0.value + 0.5 * p1.value`. -/
def MixPDF.value (v0 v1 : ℚ) : ℚ := 0.5 * v0 + 0.5 * v1

/-- The PDF value `Renderer::ray_color` evaluates in its `Diffuse` branch:
the cosine PDF alone when `scene.lights.objects` is empty, otherwise the
50/50 mixture of the cosine PDF and `HittablePDF` over the lights list
(whose `value` is `HittableList::pdf_val`).  `none` marks a division by
zero inside `HittableList::pdf_val`. -/
def rayColorPdfVal (lightVals : List ℚ) (cosineVal : ℚ) : Option ℚ :=
  if lightVals.isEmpty then some cosineVal
  else (HittableList.pdfVal lightVals).map (fun hv => MixPDF.value cosineVal hv)

/-! ## Image texture lookup (`texture.rs`) -/

/-- Rust `f32::clamp(self, min, max)`. -/
def clampQ (x lo hi : ℚ) : ℚ := min (max x lo) hi

/-- The pixel-index computation in `ImageTexture::value`:
`((coord.clamp(0.,1.) * d as f32) as u32).min(d - 1)` (the `as u32` cast
truncates toward zero; its argument is non-negative here). -/
def ImageTexture.pixelIndex (coord : ℚ) (d : ℕ) : ℕ :=
  min (clampQ coord 0 1 * (d : ℚ)).floor.toNat (d - 1)

/-- `ImageTexture::value` on a successfully loaded `w × h` image: pixel bytes
(`ℕ`, `< 256` from `u8`) are scaled by `COLOR_SCALE = 1/255`. -/
def ImageTexture.value (w h : ℕ) (pix : ℕ → ℕ → ℕ × ℕ × ℕ)
    (uv : ℚ × ℚ) : Vec3 :=
  let x := ImageTexture.pixelIndex uv.1 w
  let y := ImageTexture.pixelIndex uv.2 h
  let rgb := pix x y
  ⟨(rgb.1 : ℚ) / 255, (rgb.2.1 : ℚ) / 255, (rgb.2.2 : ℚ) / 255⟩

/-! ## BVH vs. linear scan (`aabb.rs` `BVHNode::hit`, `ray.rs` `HittableList::hit`)

A primitive behind the `Hittable` trait is modelled by its `hit` function
projected to the returned `t` (`ℚ → ℚ → Option ℚ`, window in, nearest `t`
out).  The claims compare only `None`-ness and the `t` values, which this
projection preserves. -/

/-- A primitive's `hit(ray, t_min, t_max)` for one fixed ray, projected to
the `t` of the returned record. -/
def HitFn : Type := ℚ → ℚ → Option ℚ

/-- The nearest element of `S` inside `[a, b]` (`none` when no element of
`S` lies in the window): the intersection-parameter semantics of a
well-behaved primitive. -/
def leastIn (S : List ℚ) (a b : ℚ) : Option ℚ :=
  S.foldr (fun t acc =>
    if a ≤ t ∧ t ≤ b then
      match acc with
      | some m => some (min t m)
      | none => some t
    else acc) none

/-- A hit function that, on every window, reports the nearest element of its
parameter set `S` — the behaviour `Sphere::hit`, `AxisAlignedRect::hit`, …
have on their root sets. -/
def IsLeastHitFn (f : HitFn) (S : List ℚ) : Prop :=
  ∀ a b, f a b = leastIn S a b

/-- `HittableList::hit`, projected to `t`: scan the objects keeping
`closest_so_far` (initially `t_max`, updated to each accepted hit's `t`). -/
def HittableList.hitT (objs : List HitFn) (t_min t_max : ℚ) : Option ℚ :=
  objs.foldl (fun acc f =>
    match f t_min (match acc with | some t => t | none => t_max) with
    | some t => some t
    | none => acc) none

/-- The tree shape `BVHNode::new` builds: leaves are primitives (annotated
with their hit-parameter set), inner nodes carry the surrounding box. -/
inductive BVHTree where
  | leaf : HitFn → List ℚ → BVHTree
  | node : BVHTree → BVHTree → Aabb → BVHTree

namespace BVHTree

/-- `BVHNode::hit`: reject via the slab test, query the left child, then the
right child with `t_max` narrowed to the left hit's `t` (`.or(hit_left)`). -/
def hit (ray : Ray) : BVHTree → ℚ → ℚ → Option ℚ
  | .leaf f _, t_min, t_max => f t_min t_max
  | .node l r bb, t_min, t_max =>
    if bb.hit ray t_min t_max then
      match l.hit ray t_min t_max with
      | some tl => (r.hit ray t_min tl).or (some tl)
      | none => r.hit ray t_min t_max
    else none

/-- The leaves' hit functions, left to right. -/
def leafFns : BVHTree → List HitFn
  | .leaf f _ => [f]
  | .node l r _ => l.leafFns ++ r.leafFns

/-- All hit parameters of all leaves, left to right. -/
def allHits : BVHTree → List ℚ
  | .leaf _ S => S
  | .node l r _ => l.allHits ++ r.allHits

/-- Every leaf's hit function has the nearest-element semantics of its set. -/
def goodLeaves : BVHTree → Prop
  | .leaf f S => IsLeastHitFn f S
  | .node l r _ => l.goodLeaves ∧ r.goodLeaves

/-- Box soundness at one node: the slab test accepts every non-degenerate
window that brackets a hit parameter of a descendant leaf.  (The slab test's
strict inequality makes this fail for degenerate windows, hence `a < b`.) -/
def BoxSound (ray : Ray) (bb : Aabb) (S : List ℚ) : Prop :=
  ∀ a b t, a < b → t ∈ S → a ≤ t → t ≤ b → bb.hit ray a b = true

/-- Box soundness at every node of the tree. -/
def boxesSound (ray : Ray) : BVHTree → Prop
  | .leaf _ _ => True
  | .node l r bb =>
    BoxSound ray bb (l.allHits ++ r.allHits) ∧ l.boxesSound ray ∧ r.boxesSound ray

end BVHTree

/-! ### Nearest-hit semantics lemmas -/

theorem leastIn_cons (t : ℚ) (S : List ℚ) (a b : ℚ) :
    leastIn (t :: S) a b =
      if a ≤ t ∧ t ≤ b then
        match leastIn S a b with
        | some m => some (min t m)
        | none => some t
      else leastIn S a b := rfl

theorem leastIn_none_iff {S : List ℚ} {a b : ℚ} :
    leastIn S a b = none ↔ ∀ u ∈ S, ¬(a ≤ u ∧ u ≤ b) := by
  induction S with
  | nil => simp [leastIn]
  | cons h tl ih =>
    rw [leastIn_cons]
    by_cases hc : a ≤ h ∧ h ≤ b
    · rw [if_pos hc]
      constructor
      · intro he
        cases hlt : leastIn tl a b <;> rw [hlt] at he <;> simp at he
      · intro hall
        exact absurd hc (hall h (List.mem_cons_self h tl))
    · rw [if_neg hc, ih]
      constructor
      · intro hall u hu
        rcases List.mem_cons.mp hu with rfl | hu'
        · exact hc
        · exact hall u hu'
      · intro hall u hu
        exact hall u (List.mem_cons_of_mem _ hu)

theorem leastIn_some_spec {S : List ℚ} {a b t : ℚ}
    (h : leastIn S a b = some t) :
    t ∈ S ∧ a ≤ t ∧ t ≤ b ∧ ∀ u ∈ S, a ≤ u → u ≤ b → t ≤ u := by
  induction S generalizing t with
  | nil => simp [leastIn] at h
  | cons hd tl ih =>
    rw [leastIn_cons] at h
    by_cases hc : a ≤ hd ∧ hd ≤ b
    · rw [if_pos hc] at h
      cases hlt : leastIn tl a b with
      | none =>
        rw [hlt] at h
        obtain rfl : hd = t := by simpa using h
        refine ⟨List.mem_cons_self _ _, hc.1, hc.2, ?_⟩
        intro u hu hua hub
        rcases List.mem_cons.mp hu with rfl | hu'
        · exact le_refl u
        · exact absurd ⟨hua, hub⟩ (leastIn_none_iff.mp hlt u hu')
      | some m =>
        rw [hlt] at h
        obtain rfl : min hd m = t := by simpa using h
        obtain ⟨hmem, hma, hmb, hmin⟩ := ih hlt
        refine ⟨?_, ?_, ?_, ?_⟩
        · rcases min_choice hd m with he | he <;> rw [he]
          · exact List.mem_cons_self _ _
          · exact List.mem_cons_of_mem _ hmem
        · exact le_min hc.1 hma
        · exact le_trans (min_le_left _ _) hc.2
        · intro u hu hua hub
          rcases List.mem_cons.mp hu with rfl | hu'
          · exact min_le_left _ _
          · exact le_trans (min_le_right _ _) (hmin u hu' hua hub)
    · rw [if_neg hc] at h
      obtain ⟨hmem, hma, hmb, hmin⟩ := ih h
      refine ⟨List.mem_cons_of_mem _ hmem, hma, hmb, ?_⟩
      intro u hu hua hub
      rcases List.mem_cons.mp hu with rfl | hu'
      · exact absurd ⟨hua, hub⟩ hc
      · exact hmin u hu' hua hub

theorem leastIn_eq_some {S : List ℚ} {a b t : ℚ}
    (hmem : t ∈ S) (ha : a ≤ t) (hb : t ≤ b)
    (hle : ∀ u ∈ S, a ≤ u → u ≤ b → t ≤ u) :
    leastIn S a b = some t := by
  cases h : leastIn S a b with
  | none => exact absurd ⟨ha, hb⟩ (leastIn_none_iff.mp h t hmem)
  | some m =>
    obtain ⟨hm_mem, hma, hmb, hmin⟩ := leastIn_some_spec h
    rw [le_antisymm (hmin t hmem ha hb) (hle m hm_mem hma hmb)]

theorem leastIn_append_left_none {X Y : List ℚ} {a b : ℚ}
    (h : leastIn X a b = none) :
    leastIn (X ++ Y) a b = leastIn Y a b := by
  cases hy : leastIn Y a b with
  | none =>
    rw [leastIn_none_iff]
    intro u hu
    rcases List.mem_append.mp hu with hx | hyy
    · exact leastIn_none_iff.mp h u hx
    · exact leastIn_none_iff.mp hy u hyy
  | some m =>
    obtain ⟨hm_mem, hma, hmb, hmin⟩ := leastIn_some_spec hy
    refine leastIn_eq_some (List.mem_append.mpr (Or.inr hm_mem)) hma hmb ?_
    intro u hu hua hub
    rcases List.mem_append.mp hu with hx | hyy
    · exact absurd ⟨hua, hub⟩ (leastIn_none_iff.mp h u hx)
    · exact hmin u hyy hua hub

/-! ### The linear scan computes the nearest hit -/

theorem hitT_go {a b : ℚ} :
    ∀ {fs : List HitFn} {Ss : List (List ℚ)},
    List.Forall₂ IsLeastHitFn fs Ss →
    ∀ (Sdone : List ℚ) (acc : Option ℚ), acc = leastIn Sdone a b →
    fs.foldl (fun acc f =>
      match f a (match acc with | some t => t | none => b) with
      | some t => some t
      | none => acc) acc = leastIn (Sdone ++ Ss.flatten) a b := by
  intro fs Ss hall
  induction hall with
  | nil =>
    intro Sdone acc hacc
    simpa using hacc
  | @cons f S fs Ss hf _ ih =>
    intro Sdone acc hacc
    subst hacc
    rw [List.foldl_cons]
    have hstep :
        (match f a (match leastIn Sdone a b with | some t => t | none => b) with
          | some t => some t
          | none => leastIn Sdone a b) = leastIn (Sdone ++ S) a b := by
      cases hlt : leastIn Sdone a b with
      | none =>
        rw [hf a b, leastIn_append_left_none hlt]
        cases hS : leastIn S a b <;> rfl
      | some t =>
        obtain ⟨htm, hta, htb, htmin⟩ := leastIn_some_spec hlt
        rw [hf a t]
        cases hS : leastIn S a t with
        | some u =>
          obtain ⟨hum, hua, hut, humin⟩ := leastIn_some_spec hS
          refine (leastIn_eq_some (List.mem_append.mpr (Or.inr hum)) hua
            (le_trans hut htb) ?_).symm
          intro v hv hva hvb
          rcases List.mem_append.mp hv with hvd | hvs
          · exact le_trans hut (htmin v hvd hva hvb)
          · by_cases hvt : v ≤ t
            · exact humin v hvs hva hvt
            · exact le_trans hut (le_of_not_le hvt)
        | none =>
          refine (leastIn_eq_some (List.mem_append.mpr (Or.inl htm)) hta htb ?_).symm
          intro v hv hva hvb
          rcases List.mem_append.mp hv with hvd | hvs
          · exact htmin v hvd hva hvb
          · by_cases hvt : v ≤ t
            · exact absurd ⟨hva, hvt⟩ (leastIn_none_iff.mp hS v hvs)
            · exact le_of_not_le hvt
    rw [hstep]
    have h2 := ih (Sdone ++ S) (leastIn (Sdone ++ S) a b) rfl
    rw [h2, List.flatten_cons, List.append_assoc]

theorem hitT_eq_leastIn {fs : List HitFn} {Ss : List (List ℚ)}
    (hall : List.Forall₂ IsLeastHitFn fs Ss) (a b : ℚ) :
    HittableList.hitT fs a b = leastIn Ss.flatten a b := by
  have h := hitT_go (a := a) (b := b) hall [] none rfl
  simpa [HittableList.hitT] using h

/-! ### The BVH computes the nearest hit under box soundness -/

namespace BVHTree

/-- The leaves' hit-parameter sets, left to right. -/
def leafSets : BVHTree → List (List ℚ)
  | .leaf _ S => [S]
  | .node l r _ => l.leafSets ++ r.leafSets

theorem allHits_eq_flatten : ∀ T : BVHTree, T.allHits = T.leafSets.flatten
  | .leaf _ S => by simp [allHits, leafSets]
  | .node l r bb => by
    rw [allHits, leafSets, List.flatten_append,
      allHits_eq_flatten l, allHits_eq_flatten r]

theorem goodLeaves_forall₂ :
    ∀ T : BVHTree, T.goodLeaves →
      List.Forall₂ IsLeastHitFn T.leafFns T.leafSets
  | .leaf f S, hg => by
    rw [leafFns, leafSets]
    exact List.Forall₂.cons hg List.Forall₂.nil
  | .node l r bb, hg => by
    rw [leafFns, leafSets]
    exact List.rel_append (goodLeaves_forall₂ l hg.1) (goodLeaves_forall₂ r hg.2)

theorem hit_some_spec {ray : Ray} :
    ∀ {T : BVHTree}, T.goodLeaves → ∀ {a b t : ℚ},
      T.hit ray a b = some t → a ≤ t ∧ t ≤ b ∧ t ∈ T.allHits := by
  intro T
  induction T with
  | leaf f S =>
    intro hg a b t h
    have h' : leastIn S a b = some t := by rw [← hg a b]; exact h
    obtain ⟨hm, ha, hb, _⟩ := leastIn_some_spec h'
    exact ⟨ha, hb, by simpa [allHits] using hm⟩
  | node l r bb ihl ihr =>
    intro hg a b t h
    rw [hit] at h
    split at h
    · split at h
      next tl hl =>
        obtain ⟨hla, hlb, hlm⟩ := ihl hg.1 hl
        cases hr : BVHTree.hit ray r a tl with
        | some tr =>
          rw [hr] at h
          obtain rfl : tr = t := by simpa using h
          obtain ⟨hra, hrb, hrm⟩ := ihr hg.2 hr
          exact ⟨hra, le_trans hrb hlb,
            by rw [allHits]; exact List.mem_append.mpr (Or.inr hrm)⟩
        | none =>
          rw [hr] at h
          obtain rfl : tl = t := by simpa using h
          exact ⟨hla, hlb,
            by rw [allHits]; exact List.mem_append.mpr (Or.inl hlm)⟩
      next hl =>
        obtain ⟨hra, hrb, hrm⟩ := ihr hg.2 h
        exact ⟨hra, hrb, by rw [allHits]; exact List.mem_append.mpr (Or.inr hrm)⟩
    · exact absurd h (by simp)

theorem hit_eq_leastIn {ray : Ray} :
    ∀ {T : BVHTree}, T.goodLeaves → T.boxesSound ray →
      ∀ a b, a < b → T.hit ray a b = leastIn T.allHits a b := by
  intro T
  induction T with
  | leaf f S =>
    intro hg _ a b _
    exact hg a b
  | node l r bb ihl ihr =>
    intro hg hs a b hab
    obtain ⟨hbs, hsl, hsr⟩ := hs
    rw [hit, allHits]
    split
    next hbb =>
      split
      next tl hl =>
        have hL : leastIn l.allHits a b = some tl := by
          rw [← ihl hg.1 hsl a b hab]; exact hl
        obtain ⟨hlm, hla, hlb, hlmin⟩ := leastIn_some_spec hL
        by_cases htl : a < tl
        · rw [ihr hg.2 hsr a tl htl]
          cases hR : leastIn r.allHits a tl with
          | some tr =>
            obtain ⟨hrm, hra, hrt, hrmin⟩ := leastIn_some_spec hR
            show some tr = _
            refine (leastIn_eq_some (List.mem_append.mpr (Or.inr hrm)) hra
              (le_trans hrt hlb) ?_).symm
            intro v hv hva hvb
            rcases List.mem_append.mp hv with hvl | hvr
            · exact le_trans hrt (hlmin v hvl hva hvb)
            · by_cases hvt : v ≤ tl
              · exact hrmin v hvr hva hvt
              · exact le_trans hrt (le_of_not_le hvt)
          | none =>
            show some tl = _
            refine (leastIn_eq_some (List.mem_append.mpr (Or.inl hlm)) hla hlb ?_).symm
            intro v hv hva hvb
            rcases List.mem_append.mp hv with hvl | hvr
            · exact hlmin v hvl hva hvb
            · by_cases hvt : v ≤ tl
              · exact absurd ⟨hva, hvt⟩ (leastIn_none_iff.mp hR v hvr)
              · exact le_of_not_le hvt
        · have htla : tl = a := le_antisymm (not_lt.mp htl) hla
          have hgoal : leastIn (l.allHits ++ r.allHits) a b = some tl := by
            refine leastIn_eq_some (List.mem_append.mpr (Or.inl hlm)) hla hlb ?_
            intro v _ hva _
            rw [htla]
            exact hva
          cases hr : BVHTree.hit ray r a tl with
          | some u =>
            obtain ⟨hua, hub, _⟩ := hit_some_spec hg.2 hr
            obtain rfl : u = tl := le_antisymm hub (htla ▸ hua)
            show some u = _
            exact hgoal.symm
          | none =>
            show some tl = _
            exact hgoal.symm
      next hl =>
        have hL : leastIn l.allHits a b = none := by
          rw [← ihl hg.1 hsl a b hab]; exact hl
        rw [ihr hg.2 hsr a b hab, leastIn_append_left_none hL]
    next hbb =>
      refine (leastIn_none_iff.mpr ?_).symm
      intro u hu hcon
      exact hbb (hbs a b u hab hu hcon.1 hcon.2)

end BVHTree

/-! ## Claim C1 -/

/-- Witness scene for the amended BVH claim: two primitives with hit
parameters 5 and 7 under a huge box, ray along (1,1,1) from the origin. -/
def rayW : Ray := { origin := ⟨0, 0, 0⟩, direction := ⟨1, 1, 1⟩, time := 0 }

def bbW : Aabb := ⟨⟨-1000, -1000, -1000⟩, ⟨1000, 1000, 1000⟩⟩

def treeW : BVHTree :=
  .node (.leaf (fun a b => leastIn [5] a b) [5])
        (.leaf (fun a b => leastIn [7] a b) [7]) bbW

theorem treeW_goodLeaves : treeW.goodLeaves :=
  ⟨fun _ _ => rfl, fun _ _ => rfl⟩

theorem bbW_axisHit {a b t : ℚ} (hab : a < b) (hat : a ≤ t) (htb : t ≤ b)
    (h1 : -1000 < t) (h2 : t < 1000) :
    Aabb.axisHit 0 1 (-1000) 1000 a b = true := by
  simp only [Aabb.axisHit, decide_eq_true_eq]
  rw [if_neg (by norm_num)]
  simp only [lt_min_iff, max_lt_iff]
  norm_num
  refine ⟨⟨?_, ?_⟩, ?_⟩ <;> linarith

theorem treeW_boxesSound : treeW.boxesSound rayW := by
  refine ⟨?_, trivial, trivial⟩
  intro a b t hab ht hat htb
  have h57 : t = 5 ∨ t = 7 := by
    simpa [treeW, BVHTree.allHits] using ht
  have h1 : -1000 < t := by rcases h57 with rfl | rfl <;> norm_num
  have h2 : t < 1000 := by rcases h57 with rfl | rfl <;> norm_num
  have e : Aabb.hit bbW rayW a b =
      (Aabb.axisHit 0 1 (-1000) 1000 a b && Aabb.axisHit 0 1 (-1000) 1000 a b &&
       Aabb.axisHit 0 1 (-1000) 1000 a b) := rfl
  show Aabb.hit bbW rayW a b = true
  rw [e, bbW_axisHit hab hat htb h1 h2]
  rfl

/-- C1, amended: for every ray, every window `t_min < t_max`, and every BVH
whose leaves have nearest-hit semantics, **provided** every node's bounding
box passes the slab test on each non-degenerate window bracketing a
descendant hit (box soundness), `BVHNode::hit` returns exactly the nearest
`t` that the linear `HittableList::hit` scan over the same leaves returns,
and they are `None` together.  (Without the proviso the claim is false: the
slab test's strict inequality can reject a window whose endpoint is exactly
the hit parameter — see the counterexample.) -/
theorem bvh_hit_eq_linear_scan {ray : Ray} {T : BVHTree} {a b : ℚ}
    (hg : T.goodLeaves) (hs : T.boxesSound ray) (hab : a < b) :
    T.hit ray a b = HittableList.hitT T.leafFns a b := by
  rw [BVHTree.hit_eq_leastIn hg hs a b hab,
    hitT_eq_leastIn (BVHTree.goodLeaves_forall₂ T hg) a b,
    BVHTree.allHits_eq_flatten]

/-- Witness for C1: the amended equivalence applied to the concrete
two-leaf tree, with every hypothesis discharged. -/
theorem bvh_hit_eq_linear_scan_witness :
    treeW.goodLeaves ∧ treeW.boxesSound rayW ∧ (0 : ℚ) < 100 ∧
      (treeW.hit rayW 0 100 = HittableList.hitT treeW.leafFns 0 100 ∧
       treeW.hit rayW 0 100 = some 5) :=
  ⟨treeW_goodLeaves, treeW_boxesSound, by norm_num,
    bvh_hit_eq_linear_scan treeW_goodLeaves treeW_boxesSound (by norm_num),
    by with_unfolding_all rfl⟩

/-- `sqrt`, `tan`, `acos`, `atan2` instantiation for the boundary
counterexample: exact on the two perfect squares the run evaluates. -/
def rfC : RF :=
  { sqrt := fun q => if q = 144 / 169 then 12 / 13 else if q = 1 then 1 else 0
    tan := fun _ => 0
    acos := fun _ => 0
    atan2 := fun _ _ => 0 }

/-- Unit sphere at (3,4,12) (radius 1). -/
def sphereC : Sphere :=
  { center0 := ⟨3, 4, 12⟩, center1 := ⟨3, 4, 12⟩, radius := 1, material := 0,
    time0 := 0, time1 := 0, moving := false }

/-- Ray through the sphere's face-tangent point (2,4,12) at parameter 13. -/
def rayC : Ray :=
  { origin := ⟨-10, 1, 8⟩, direction := ⟨12/13, 3/13, 4/13⟩, time := 0 }

/-- The sphere as a `Hittable`, projected to the returned `t`. -/
def hitFnC : HitFn := fun t_min t_max =>
  (Sphere.hit rfC sphereC rayC t_min t_max).map HitRecord.t

/-- The BVH that `BVHNode::new` builds from the one-element list
`[sphereC]`: both children reference the primitive, the node box is the
surrounding box of the duplicated child. -/
def treeC : BVHTree :=
  .node (.leaf hitFnC [13]) (.leaf hitFnC [13])
    (Aabb.surrounding sphereC.bounding_box sphereC.bounding_box)

/-- Counterexample to C1 as stated: on the window [1/1000, 13] the sphere
reports a hit at t = 13 (the linear scan returns it) but the BVH's slab
test rejects the window (strict inequality at the boundary) and the BVH
returns `None`. -/
theorem bvh_hit_ne_linear_scan_cex :
    HittableList.hitT [hitFnC] (1/1000 : ℚ) 13 = some 13 ∧
    BVHTree.hit rayC treeC (1/1000 : ℚ) 13 = none := by
  constructor <;> with_unfolding_all rfl

/-! ## Claim C2 -/

/-- The boundary-scenario ray: origin (0,0,0), direction (0,0,−1). -/
def rayZ : Ray := { origin := ⟨0, 0, 0⟩, direction := ⟨0, 0, -1⟩, time := 0 }

/-- The sphere of the reference scenario as the code renders it: centre
(0,0,−1), radius 1/2 (the claim's "unit sphere" is the correction). -/
def sphereHalf : Sphere :=
  { center0 := ⟨0, 0, -1⟩, center1 := ⟨0, 0, -1⟩, radius := 1/2, material := 0,
    time0 := 0, time1 := 0, moving := false }

/-- A unit sphere (radius 1) at (0,0,−1), the claim's literal object. -/
def sphereUnit : Sphere :=
  { center0 := ⟨0, 0, -1⟩, center1 := ⟨0, 0, -1⟩, radius := 1, material := 0,
    time0 := 0, time1 := 0, moving := false }

/-- `sqrt` instantiation for the unit-sphere counterexample. -/
def rfC2 : RF :=
  { sqrt := fun q => if q = 1 then 1 else 0
    tan := fun _ => 0, acos := fun _ => 0, atan2 := fun _ _ => 0 }

/-- C2, amended: against the **radius-1/2** sphere at (0,0,−1) (the claim's
"unit sphere" is wrong: the unit sphere's roots on this ray are 0 and 2, not
0.5), the ray (0,0,0)→(0,0,−1) with `t_min ≤ 0.5 ≤ t_max` first hits at
t = 0.5, point (0,0,−0.5), normal (0,0,1), front_face = true, via the half-b
quadratic. -/
theorem sphere_hit_scenario (rf : RF) (t_min t_max : ℚ)
    (hs14 : rf.sqrt (1/4) = 1/2) (hs1 : rf.sqrt 1 = 1)
    (hmin : t_min ≤ 1/2) (hmax : 1/2 ≤ t_max) :
    Sphere.hit rf sphereHalf rayZ t_min t_max =
      some { point := ⟨0, 0, -(1/2)⟩, normal := ⟨0, 0, 1⟩, t := 1/2,
             uv := Sphere.get_sphere_uv rf ⟨0, 0, 1⟩,
             front_face := true, material := 0 } := by
  simp only [Sphere.hit, Sphere.get_center, sphereHalf, rayZ, Vec3.sub, Vec3.dot,
    Vec3.norm_squared, Ray.at, Vec3.add, Vec3.smul, Vec3.sdiv, Vec3.normalize,
    setFaceNormal, Vec3.neg]
  norm_num
  rw [hs14]
  norm_num
  refine ⟨1/2, ?_, ?_⟩
  · rw [if_neg]
    push_neg
    exact ⟨hmin, hmax⟩
  · norm_num [hs1]

/-- `sqrt` table for the C2 witness. -/
def rfC2W : RF :=
  { sqrt := fun q => if q = 1/4 then 1/2 else if q = 1 then 1 else 0
    tan := fun _ => 0, acos := fun _ => 0, atan2 := fun _ _ => 0 }

/-- Witness for C2's amended theorem at `t_min = 0`, `t_max = 100`. -/
theorem sphere_hit_scenario_witness :
    rfC2W.sqrt (1/4) = 1/2 ∧ rfC2W.sqrt 1 = 1 ∧ (0 : ℚ) ≤ 1/2 ∧ (1/2 : ℚ) ≤ 100 ∧
    Sphere.hit rfC2W sphereHalf rayZ 0 100 =
      some { point := ⟨0, 0, -(1/2)⟩, normal := ⟨0, 0, 1⟩, t := 1/2,
             uv := Sphere.get_sphere_uv rfC2W ⟨0, 0, 1⟩,
             front_face := true, material := 0 } :=
  ⟨by with_unfolding_all rfl, by with_unfolding_all rfl, by norm_num, by norm_num,
   sphere_hit_scenario rfC2W 0 100 (by with_unfolding_all rfl)
     (by with_unfolding_all rfl) (by norm_num) (by norm_num)⟩

/-- Counterexample to C2 as stated: against the **unit** sphere at (0,0,−1)
the same ray with `t_min = 1/100 ≤ 0.5 ≤ 100 = t_max` hits at `t = 2`
(roots 0 and 2; 0 is below `t_min`), not at `t = 0.5`. -/
theorem sphere_unit_hit_ne_half_cex :
    ((1:ℚ)/100 ≤ 1/2 ∧ (1/2:ℚ) ≤ 100) ∧
    (Sphere.hit rfC2 sphereUnit rayZ (1/100) 100).map HitRecord.t = some 2 ∧
    (2 : ℚ) ≠ 1/2 :=
  ⟨⟨by norm_num, by norm_num⟩, by with_unfolding_all rfl, by norm_num⟩

/-! ## Claim C3 -/

/-- C3: for every texture, ray and hit record, `DiffuseLight::scatter`
returns no scatter record, and (as `ray_color` consumes `emit`), the emitted
radiance equals the texture value at (uv, point) when `front_face` is true
and black (0,0,0) when it is false. -/
theorem diffuse_light_scatter_emit (texture : TextureFn) (ray_in : Ray)
    (hit_record : HitRecord) :
    DiffuseLight.scatter ray_in hit_record = none ∧
    emittedRadiance texture hit_record =
      (if hit_record.front_face then texture hit_record.uv hit_record.point
       else Vec3.zero) := by
  refine ⟨rfl, ?_⟩
  rw [emittedRadiance, DiffuseLight.emit]
  by_cases h : hit_record.front_face <;> simp [h]

/-! ## Claim C4 -/

/-- Counterexample to C4 as stated: a −∞ component is neither NaN nor +∞,
so the claim says it passes through unchanged, but `is_infinite()` is true
for −∞ and the code replaces it by 1. -/
theorem sanitize_neginf_cex :
    sanitize F32.neginf = F32.fin 1 ∧ sanitize F32.neginf ≠ F32.neginf :=
  ⟨rfl, by decide⟩

/-- C4, amended: before averaging, each per-sample radiance component that
is NaN becomes 0, each **infinite component of either sign** becomes 1, and
every finite component passes through unchanged. -/
theorem sanitize_spec (q : ℚ) :
    sanitize F32.nan = F32.fin 0 ∧ sanitize F32.inf = F32.fin 1 ∧
    sanitize F32.neginf = F32.fin 1 ∧ sanitize (F32.fin q) = F32.fin q :=
  ⟨rfl, rfl, rfl, rfl⟩

/-! ## Claim C5 -/

theorem axisHit_swapped_false {a b mn mx t_min t_max : ℚ}
    (hneg : b < 0) (hmm : mn ≤ mx) :
    Aabb.axisHit a b mx mn t_min t_max = false := by
  have hinv : 1 / b < 0 := one_div_neg.mpr hneg
  simp only [Aabb.axisHit]
  rw [if_pos hinv]
  simp only [decide_eq_false_iff_not, not_lt]
  have hswap : (mx - a) * (1/b) ≤ (mn - a) * (1/b) :=
    mul_le_mul_of_nonpos_right (by linarith) (le_of_lt hinv)
  calc min t_max ((mx - a) * (1/b)) ≤ (mx - a) * (1/b) := min_le_right _ _
    _ ≤ (mn - a) * (1/b) := hswap
    _ ≤ max t_min ((mn - a) * (1/b)) := le_max_right _ _

/-- C5, amended: on any axis whose ray direction component is negative,
the box with minimum and maximum swapped on that axis **never** passes
`AxisAlignedBoundingBox::hit` (the per-axis swap of `t0`,`t1` assumes
`min ≤ max`, so the swapped slab interval is reversed and the strict test
fails); hence the swap leaves the boolean result unchanged exactly when the
original test already returns false. -/
theorem aabb_swapped_axis_misses (ray : Ray) (bb : Aabb) (t_min t_max : ℚ)
    (i : Fin 3) (hneg : ray.direction.nth i < 0)
    (hmm : bb.minimum.nth i ≤ bb.maximum.nth i) :
    Aabb.hit (Aabb.swapAxis i bb) ray t_min t_max = false ∧
    (Aabb.hit (Aabb.swapAxis i bb) ray t_min t_max = Aabb.hit bb ray t_min t_max
      ↔ Aabb.hit bb ray t_min t_max = false) := by
  have hfalse : Aabb.hit (Aabb.swapAxis i bb) ray t_min t_max = false := by
    fin_cases i
    · have hneg' : ray.direction.x < 0 := hneg
      have hmm' : bb.minimum.x ≤ bb.maximum.x := hmm
      show (Aabb.axisHit ray.origin.x ray.direction.x bb.maximum.x bb.minimum.x
          t_min t_max &&
        Aabb.axisHit ray.origin.y ray.direction.y bb.minimum.y bb.maximum.y
          t_min t_max &&
        Aabb.axisHit ray.origin.z ray.direction.z bb.minimum.z bb.maximum.z
          t_min t_max) = false
      rw [axisHit_swapped_false hneg' hmm']
      simp
    · have hneg' : ray.direction.y < 0 := hneg
      have hmm' : bb.minimum.y ≤ bb.maximum.y := hmm
      show (Aabb.axisHit ray.origin.x ray.direction.x bb.minimum.x bb.maximum.x
          t_min t_max &&
        Aabb.axisHit ray.origin.y ray.direction.y bb.maximum.y bb.minimum.y
          t_min t_max &&
        Aabb.axisHit ray.origin.z ray.direction.z bb.minimum.z bb.maximum.z
          t_min t_max) = false
      rw [axisHit_swapped_false hneg' hmm']
      simp
    · have hneg' : ray.direction.z < 0 := hneg
      have hmm' : bb.minimum.z ≤ bb.maximum.z := hmm
      show (Aabb.axisHit ray.origin.x ray.direction.x bb.minimum.x bb.maximum.x
          t_min t_max &&
        Aabb.axisHit ray.origin.y ray.direction.y bb.minimum.y bb.maximum.y
          t_min t_max &&
        Aabb.axisHit ray.origin.z ray.direction.z bb.maximum.z bb.minimum.z
          t_min t_max) = false
      rw [axisHit_swapped_false hneg' hmm']
      simp
  refine ⟨hfalse, ?_⟩
  rw [hfalse]
  exact ⟨fun h => h.symm, fun h => h.symm⟩

/-- Ray and box exhibiting the C5 counterexample: direction
(−3/13, 4/13, 12/13) (unit), box [1,2]×[−100,100]×[−100,100]. -/
def rayS : Ray := { origin := ⟨0, 0, 0⟩, direction := ⟨-3/13, 4/13, 12/13⟩, time := 0 }

def bbS : Aabb := ⟨⟨1, -100, -100⟩, ⟨2, 100, 100⟩⟩

/-- Counterexample to C5 as stated: on the window [−5, −9/2] the original
box is hit but the box with min/max swapped on the (negative) x axis is
missed, so the swap does change the boolean result. -/
theorem aabb_swap_changes_result_cex :
    rayS.direction.x < 0 ∧
    Aabb.hit bbS rayS (-5) (-9/2) = true ∧
    Aabb.hit (Aabb.swapAxis 0 bbS) rayS (-5) (-9/2) = false := by
  refine ⟨by norm_num [rayS], ?_, ?_⟩ <;> with_unfolding_all rfl

/-- Witness for C5's amended theorem at the same concrete input. -/
theorem aabb_swapped_axis_misses_witness :
    rayS.direction.nth 0 < 0 ∧ bbS.minimum.nth 0 ≤ bbS.maximum.nth 0 ∧
    (Aabb.hit (Aabb.swapAxis 0 bbS) rayS (-5) (-9/2) = false ∧
     (Aabb.hit (Aabb.swapAxis 0 bbS) rayS (-5) (-9/2) =
        Aabb.hit bbS rayS (-5) (-9/2) ↔
      Aabb.hit bbS rayS (-5) (-9/2) = false)) :=
  ⟨by norm_num [rayS, Vec3.nth], by norm_num [bbS, Vec3.nth],
   aabb_swapped_axis_misses rayS bbS (-5) (-9/2) 0
     (by norm_num [rayS, Vec3.nth]) (by norm_num [bbS, Vec3.nth])⟩

/-! ## Claim C6 -/

theorem Vec3.dot_comm (a b : Vec3) : a.dot b = b.dot a := by
  simp only [Vec3.dot]
  ring

theorem Vec3.neg_dot (a b : Vec3) : a.neg.dot b = -(a.dot b) := by
  simp only [Vec3.dot, Vec3.neg]
  ring

/-- C6: for every ray and outward unit normal, `set_face_normal` stores
`(true, n)` when `dot(direction, n) < 0` and `(false, −n)` otherwise, and in
both cases the stored normal satisfies `dot(normal, direction) ≤ 0`. -/
theorem set_face_normal_correct (ray : Ray) (n : Vec3)
    (hunit : n.norm_squared = 1) :
    (ray.direction.dot n < 0 → setFaceNormal ray n = (true, n)) ∧
    (¬ray.direction.dot n < 0 → setFaceNormal ray n = (false, n.neg)) ∧
    Vec3.dot (setFaceNormal ray n).2 ray.direction ≤ 0 := by
  refine ⟨fun h => by simp [setFaceNormal, h],
          fun h => by simp [setFaceNormal, h], ?_⟩
  by_cases h : ray.direction.dot n < 0
  · simp only [setFaceNormal, if_pos h]
    rw [Vec3.dot_comm]
    exact le_of_lt h
  · simp only [setFaceNormal, if_neg h]
    rw [Vec3.neg_dot, Vec3.dot_comm]
    linarith [not_lt.mp h]

/-- Witness for C6 at the scenario ray and normal (0,0,1). -/
theorem set_face_normal_correct_witness :
    Vec3.norm_squared ⟨0, 0, 1⟩ = 1 ∧
    ((rayZ.direction.dot ⟨0, 0, 1⟩ < 0 → setFaceNormal rayZ ⟨0, 0, 1⟩ = (true, ⟨0, 0, 1⟩)) ∧
     (¬rayZ.direction.dot ⟨0, 0, 1⟩ < 0 →
        setFaceNormal rayZ ⟨0, 0, 1⟩ = (false, Vec3.neg ⟨0, 0, 1⟩)) ∧
     Vec3.dot (setFaceNormal rayZ ⟨0, 0, 1⟩).2 rayZ.direction ≤ 0) :=
  ⟨by norm_num [Vec3.norm_squared, Vec3.dot],
   set_face_normal_correct rayZ ⟨0, 0, 1⟩ (by norm_num [Vec3.norm_squared, Vec3.dot])⟩

/-! ## Claim C7 -/

theorem Vec3.smul_one (p : Vec3) : Vec3.smul 1 p = p := by
  cases p
  simp [Vec3.smul]

theorem Vec3.smul_smul (a b : ℚ) (p : Vec3) :
    Vec3.smul a (Vec3.smul b p) = Vec3.smul (a * b) p := by
  cases p
  simp only [Vec3.smul]
  norm_num
  constructor <;> ring_nf <;> simp [mul_assoc]

theorem turb_fold (P : Perlin) (p : Vec3) (n : ℕ) :
    (List.range n).foldl
      (fun (st : ℚ × ℚ × Vec3) _ =>
        (st.1 + st.2.1 * P.noise st.2.2, 0.5 * st.2.1, Vec3.smul 2 st.2.2))
      (0, 1, p) =
      (∑ i ∈ Finset.range n, (1/2 : ℚ)^i * P.noise (Vec3.smul (2^i) p),
       (1/2)^n, Vec3.smul (2^n) p) := by
  induction n with
  | zero => simp [Vec3.smul_one]
  | succ n ih =>
    rw [List.range_succ, List.foldl_append, ih, List.foldl_cons, List.foldl_nil,
      Finset.sum_range_succ]
    refine Prod.ext rfl (Prod.ext ?_ ?_)
    · show (0.5 : ℚ) * (1/2)^n = (1/2)^(n+1)
      rw [pow_succ]
      norm_num
      ring
    · show Vec3.smul 2 (Vec3.smul (2^n) p) = Vec3.smul (2^(n+1)) p
      rw [Vec3.smul_smul, pow_succ]
      ring_nf

/-- C7, amended: `Perlin::turb(p, None)` (7 octaves) equals the absolute
value **of the whole sum** `Σ_{i<7} (1/2)^i · noise(2^i · p)` — the code
takes `abs` once after accumulating, not per octave. -/
theorem perlin_turb_eq_abs_sum (P : Perlin) (p : Vec3) :
    P.turb p none =
      |∑ i ∈ Finset.range 7, (1/2 : ℚ)^i * P.noise (Vec3.smul (2^i) p)| := by
  simp only [Perlin.turb, Option.getD_none]
  rw [turb_fold P p 7]

/-- Concrete Perlin tables for the counterexample: identity permutations,
gradient (0,1,0) at index 1 and (1,0,0) elsewhere (all unit vectors). -/
def perlinC : Perlin :=
  { rand_float := fun n => if n = 1 then ⟨0, 1, 0⟩ else ⟨1, 0, 0⟩
    perm := fun _ n => n }

/-- Counterexample to C7 as stated: at p = (3/4, 0, 0) the code's
turbulence is |135/1024 − 1/8| = 7/1024, while the claimed per-octave
absolute sum is 135/1024 + 1/8 = 263/1024. -/
theorem perlin_turb_ne_sum_of_abs_cex :
    Perlin.turb perlinC ⟨3/4, 0, 0⟩ none = 7/1024 ∧
    (∑ i ∈ Finset.range 7,
      (1/2 : ℚ)^i * |Perlin.noise perlinC (Vec3.smul (2^i) ⟨3/4, 0, 0⟩)|)
      = 263/1024 ∧
    (7/1024 : ℚ) ≠ 263/1024 := by
  refine ⟨?_, ?_, by norm_num⟩ <;> with_unfolding_all rfl

/-! ## Claim C8 -/

theorem Vec3.norm_squared_neg (v : Vec3) : v.neg.norm_squared = v.norm_squared := by
  simp only [Vec3.norm_squared, Vec3.dot, Vec3.neg]
  ring

theorem Vec3.normalize_neg (rf : RF) (v : Vec3) :
    (Vec3.neg v).normalize rf = (v.normalize rf).neg := by
  have h := Vec3.norm_squared_neg v
  simp only [Vec3.normalize, h]
  cases v
  simp [Vec3.neg, Vec3.sdiv, neg_div]

/-- C8, amended: for every camera built by `Camera::new`,
`w = normalise(−direction)`, `u = v_up × w` (NOT normalised — the code has
no `normalize` on `u`, so `u` is generally not unit), `v = w × u`, and
`horizontal = focus_dist · viewport_width · u`. -/
theorem camera_new_basis (rf : RF) (lookfrom direction vup : Vec3)
    (vfov aspect_ratio aperture focus_dist : ℚ) :
    (Camera.new rf lookfrom direction vup vfov aspect_ratio aperture focus_dist).w
        = Vec3.normalize rf (Vec3.neg direction) ∧
    (Camera.new rf lookfrom direction vup vfov aspect_ratio aperture focus_dist).u
        = Vec3.cross vup
            (Camera.new rf lookfrom direction vup vfov aspect_ratio aperture focus_dist).w ∧
    (Camera.new rf lookfrom direction vup vfov aspect_ratio aperture focus_dist).v
        = Vec3.cross
            (Camera.new rf lookfrom direction vup vfov aspect_ratio aperture focus_dist).w
            (Camera.new rf lookfrom direction vup vfov aspect_ratio aperture focus_dist).u ∧
    (Camera.new rf lookfrom direction vup vfov aspect_ratio aperture focus_dist).horizontal
        = Vec3.smul
            (focus_dist * (2 * rf.tan (degree_to_radian vfov / 2) * aspect_ratio))
            (Camera.new rf lookfrom direction vup vfov aspect_ratio aperture focus_dist).u := by
  refine ⟨?_, rfl, rfl, rfl⟩
  show (direction.normalize rf).neg = _
  rw [Vec3.normalize_neg]

/-- `sqrt` table for the C8 counterexample. -/
def rfC8 : RF :=
  { sqrt := fun q => if q = 25 then 5 else if q = 9/25 then 3/5 else 0
    tan := fun _ => 1, acos := fun _ => 0, atan2 := fun _ _ => 0 }

/-- Camera with direction (3,4,0) (norm 5) and v_up = (0,1,0), which is not
perpendicular to the view direction. -/
def camC8 : Camera := Camera.new rfC8 ⟨0, 0, 0⟩ ⟨3, 4, 0⟩ ⟨0, 1, 0⟩ 90 1 0 10

/-- Counterexample to C8 as stated: here `u = (0,0,3/5)` has squared norm
9/25 ≠ 1 and differs from `normalise(v_up × w) = (0,0,1)`. -/
theorem camera_u_not_unit_cex :
    camC8.u = ⟨0, 0, 3/5⟩ ∧
    Vec3.norm_squared camC8.u ≠ 1 ∧
    camC8.u ≠ Vec3.normalize rfC8 (Vec3.cross ⟨0, 1, 0⟩ camC8.w) := by
  refine ⟨by with_unfolding_all rfl, ?_, ?_⟩ <;> with_unfolding_all decide

/-! ## Claim C9 -/

/-- C9: for any uv input (clamped inside) and any loaded image with
`w, h ≥ 1` whose pixels are bytes (`≤ 255`, from `u8`), the pixel indices
computed by `ImageTexture::value` satisfy `x ≤ w−1` and `y ≤ h−1` (the
lookup is in bounds) and every returned colour component lies in [0, 1]. -/
theorem image_texture_value_in_bounds (w h : ℕ) (pix : ℕ → ℕ → ℕ × ℕ × ℕ)
    (u v : ℚ) (hw : 1 ≤ w) (hh : 1 ≤ h)
    (hpix : ∀ i j, (pix i j).1 ≤ 255 ∧ (pix i j).2.1 ≤ 255 ∧ (pix i j).2.2 ≤ 255) :
    (ImageTexture.pixelIndex u w ≤ w - 1 ∧ ImageTexture.pixelIndex v h ≤ h - 1) ∧
    (0 ≤ (ImageTexture.value w h pix (u, v)).x ∧
       (ImageTexture.value w h pix (u, v)).x ≤ 1) ∧
    (0 ≤ (ImageTexture.value w h pix (u, v)).y ∧
       (ImageTexture.value w h pix (u, v)).y ≤ 1) ∧
    (0 ≤ (ImageTexture.value w h pix (u, v)).z ∧
       (ImageTexture.value w h pix (u, v)).z ≤ 1) := by
  have hx := ImageTexture.pixelIndex u w
  have hb : ∀ (b : ℕ), b ≤ 255 → 0 ≤ (b : ℚ) / 255 ∧ (b : ℚ) / 255 ≤ 1 := by
    intro b hb255
    constructor
    · positivity
    · rw [div_le_one (by norm_num)]
      exact_mod_cast hb255
  refine ⟨⟨min_le_right _ _, min_le_right _ _⟩, ?_, ?_, ?_⟩ <;>
    simp only [ImageTexture.value] <;>
    [exact hb _ (hpix _ _).1; exact hb _ (hpix _ _).2.1; exact hb _ (hpix _ _).2.2]

/-- Witness for C9: a 3×2 image of constant byte colour (10, 200, 255) and
uv = (5/2, −1) (both outside [0,1]). -/
theorem image_texture_value_in_bounds_witness :
    1 ≤ 3 ∧ 1 ≤ 2 ∧
    (∀ i j : ℕ, ((10, 200, 255) : ℕ × ℕ × ℕ).1 ≤ 255 ∧
      ((10, 200, 255) : ℕ × ℕ × ℕ).2.1 ≤ 255 ∧
      ((10, 200, 255) : ℕ × ℕ × ℕ).2.2 ≤ 255) ∧
    ((ImageTexture.pixelIndex (5/2) 3 ≤ 3 - 1 ∧
      ImageTexture.pixelIndex (-1) 2 ≤ 2 - 1) ∧
     (0 ≤ (ImageTexture.value 3 2 (fun _ _ => (10, 200, 255)) (5/2, -1)).x ∧
        (ImageTexture.value 3 2 (fun _ _ => (10, 200, 255)) (5/2, -1)).x ≤ 1) ∧
     (0 ≤ (ImageTexture.value 3 2 (fun _ _ => (10, 200, 255)) (5/2, -1)).y ∧
        (ImageTexture.value 3 2 (fun _ _ => (10, 200, 255)) (5/2, -1)).y ≤ 1) ∧
     (0 ≤ (ImageTexture.value 3 2 (fun _ _ => (10, 200, 255)) (5/2, -1)).z ∧
        (ImageTexture.value 3 2 (fun _ _ => (10, 200, 255)) (5/2, -1)).z ≤ 1)) :=
  ⟨by norm_num, by norm_num, fun _ _ => by norm_num,
   image_texture_value_in_bounds 3 2 (fun _ _ => (10, 200, 255)) (5/2) (-1)
     (by norm_num) (by norm_num) (fun _ _ => by norm_num)⟩

/-! ## Claim C10 -/

/-- C10: the PDF value evaluated by `Renderer::ray_color`'s diffuse branch
is always defined: the lights-geometry PDF (whose `HittableList::pdf_val`
divides by `objects.len()`) is only constructed when the lights list is
non-empty, so the division by zero is never reached; with no lights the
cosine PDF is used alone. -/
theorem ray_color_pdf_no_div_by_zero (lightVals : List ℚ) (cosineVal : ℚ) :
    (rayColorPdfVal lightVals cosineVal).isSome = true ∧
    (lightVals = [] → rayColorPdfVal lightVals cosineVal = some cosineVal) ∧
    (lightVals ≠ [] →
      rayColorPdfVal lightVals cosineVal =
        some (MixPDF.value cosineVal (lightVals.sum / (lightVals.length : ℚ)))) := by
  refine ⟨?_, ?_, ?_⟩
  · rw [rayColorPdfVal]
    by_cases hemp : lightVals.isEmpty
    · simp [hemp]
    · have hne : lightVals.length ≠ 0 := by
        simpa [List.isEmpty_iff, List.length_eq_zero] using hemp
      simp [hemp, HittableList.pdfVal, hne]
  · intro h
    subst h
    rfl
  · intro h
    have hne : lightVals.length ≠ 0 := by
      simpa [List.length_eq_zero] using h
    have hemp : lightVals.isEmpty = false := by
      simpa [List.isEmpty_iff] using h
    simp [rayColorPdfVal, hemp, HittableList.pdfVal, hne]

/-- Witness for C10 at a concrete non-empty lights list. -/
theorem ray_color_pdf_no_div_by_zero_witness :
    ([2, 4] : List ℚ) ≠ [] ∧
    (rayColorPdfVal [2, 4] 3).isSome = true ∧
    rayColorPdfVal [2, 4] 3 =
      some (MixPDF.value 3 (([2, 4] : List ℚ).sum / ((([2, 4] : List ℚ).length : ℕ) : ℚ))) :=
  ⟨by simp, (ray_color_pdf_no_div_by_zero [2, 4] 3).1,
   (ray_color_pdf_no_div_by_zero [2, 4] 3).2.2 (by simp)⟩
